import Mathlib

/-!
Verification of the track-simplification and spatial-filtering core of the
ny-walking-visualiser repository.

Coordinates are `(longitude, latitude)` pairs; the JavaScript `number` values
are modelled as rationals (`ℚ`), which is exact for every comparison the code
performs.  The only operation on coordinates that leaves `ℚ` in the source is
`Math.sqrt` inside `perpendicularDistance`; since the computed distances are
only ever *compared* (to each other and to a nonnegative-or-negative tolerance),
we model a distance by its square (`perpendicularDistanceSq` below), and model
the comparison `distance > tolerance` by
`tolerance < 0 ∨ distanceSq > tolerance ^ 2`, which is equivalent because
`Real.sqrt` is strictly monotone on nonnegative reals and distances are
nonnegative.
-/

/-- Squared perpendicular distance from `point` to the line through `lineStart`
and `lineEnd`, from `perpendicularDistance` in `src/lib/simplify.ts`.  With
`dx := x2 - x1`, `dy := y2 - y1`, the source returns
`sqrt ((x - x1)^2 + (y - y1)^2)` when `dx = 0 ∧ dy = 0`, and otherwise
`|dy*x - dx*y + x2*y1 - y2*x1| / sqrt (dx^2 + dy^2)`.  This definition returns
the exact square of that value. -/
def perpendicularDistanceSq (point lineStart lineEnd : ℚ × ℚ) : ℚ :=
  if lineEnd.1 - lineStart.1 = 0 ∧ lineEnd.2 - lineStart.2 = 0 then
    (point.1 - lineStart.1) ^ 2 + (point.2 - lineStart.2) ^ 2
  else
    ((lineEnd.2 - lineStart.2) * point.1 - (lineEnd.1 - lineStart.1) * point.2 +
        lineEnd.1 * lineStart.2 - lineEnd.2 * lineStart.1) ^ 2 /
      ((lineEnd.1 - lineStart.1) ^ 2 + (lineEnd.2 - lineStart.2) ^ 2)

/-- The maximum-distance scan of `simplifyPath` (`for (let i = 1; ...)` loop in
`src/lib/simplify.ts`): runs over the interior points `ps` carrying the current
index `i` and the accumulator `(maxDistance, maxIndex)`, updating it whenever
the (squared) distance of the current point to the chord strictly exceeds the
current (squared) maximum. -/
def maxPerpLoop (first lastc : ℚ × ℚ) : List (ℚ × ℚ) → Nat → ℚ × Nat → ℚ × Nat
  | [], _, acc => acc
  | p :: ps, i, acc =>
    if perpendicularDistanceSq p first lastc > acc.1 then
      maxPerpLoop first lastc ps (i + 1) (perpendicularDistanceSq p first lastc, i)
    else
      maxPerpLoop first lastc ps (i + 1) acc

/-- The `(maxDistance, maxIndex)` pair computed by `simplifyPath` for a
coordinate list: the scan starts at index `1` with accumulator `(0, 0)` and
runs over `coordinates[1 .. length-2]`. -/
def findFarthest (coordinates : List (ℚ × ℚ)) : ℚ × Nat :=
  maxPerpLoop (coordinates.headD (0, 0)) (coordinates.getLastD (0, 0))
    ((coordinates.drop 1).dropLast) 1 (0, 0)

/-- Fuel-indexed embedding of `simplifyPath` from `src/lib/simplify.ts`.  The
source recursion is not structural (for a negative tolerance and a chord that
all interior points lie on, `coordinates.slice(maxIndex)` with `maxIndex = 0`
is the whole input and the JavaScript recursion never terminates), so the
recursion depth is bounded by an explicit fuel parameter and fuel exhaustion
yields `none`.  `simplifyPathFuel_total` below shows fuel `coordinates.length`
suffices whenever `0 ≤ tolerance`, so `simplifyPath` below returns `some` of
exactly what the source computes there.  Distances are represented by their
squares, and `maxDistance > tolerance` by
`tolerance < 0 ∨ maxDistanceSq > tolerance ^ 2` (see the file comment). -/
def simplifyPathFuel : Nat → List (ℚ × ℚ) → ℚ → Option (List (ℚ × ℚ))
  | 0, coordinates, _tolerance =>
    if coordinates.length ≤ 2 then some coordinates else none
  | f + 1, coordinates, tolerance =>
    if coordinates.length ≤ 2 then some coordinates
    else
      if tolerance < 0 ∨ (findFarthest coordinates).1 > tolerance ^ 2 then
        (simplifyPathFuel f (coordinates.take ((findFarthest coordinates).2 + 1)) tolerance).bind
          (fun left =>
            (simplifyPathFuel f (coordinates.drop (findFarthest coordinates).2) tolerance).map
              (fun right => left.dropLast ++ right))
      else
        some [coordinates.headD (0, 0), coordinates.getLastD (0, 0)]

/-- `simplifyPath coordinates tolerance` from `src/lib/simplify.ts`, run with
fuel `coordinates.length` (enough for every terminating run of the source;
proved for `0 ≤ tolerance` in `simplifyPathFuel_total`). -/
def simplifyPath (coordinates : List (ℚ × ℚ)) (tolerance : ℚ) : Option (List (ℚ × ℚ)) :=
  simplifyPathFuel coordinates.length coordinates tolerance

/-- Total wrapper for `simplifyPath`, used by `simplifyToCount` which only ever
calls it at positive tolerances, where the fuel provably suffices and the
fallback value is never used. -/
def simplifyPathT (coordinates : List (ℚ × ℚ)) (tolerance : ℚ) : List (ℚ × ℚ) :=
  (simplifyPath coordinates tolerance).getD coordinates

/-- The binary-search loop of `simplifyToCount` in `src/lib/simplify.ts`: up to
`n` remaining iterations with state `(lowTolerance, highTolerance, result)`;
each iteration simplifies at the midpoint tolerance and narrows the bracket,
or breaks (returning the current state) when the count is acceptable. -/
def binSearch (coordinates : List (ℚ × ℚ)) (targetCount minPoints : ℚ) :
    Nat → ℚ → ℚ → List (ℚ × ℚ) → ℚ × ℚ × List (ℚ × ℚ)
  | 0, low, high, result => (low, high, result)
  | n + 1, low, high, _result =>
    if ((simplifyPathT coordinates ((low + high) / 2)).length : ℚ) < minPoints then
      binSearch coordinates targetCount minPoints n low ((low + high) / 2)
        (simplifyPathT coordinates ((low + high) / 2))
    else if ((simplifyPathT coordinates ((low + high) / 2)).length : ℚ) > targetCount * 1.5 then
      binSearch coordinates targetCount minPoints n ((low + high) / 2) high
        (simplifyPathT coordinates ((low + high) / 2))
    else if ((simplifyPathT coordinates ((low + high) / 2)).length : ℚ) < targetCount * 0.5 then
      binSearch coordinates targetCount minPoints n low ((low + high) / 2)
        (simplifyPathT coordinates ((low + high) / 2))
    else
      (low, high, simplifyPathT coordinates ((low + high) / 2))

/-- `simplifyToCount` from `src/lib/simplify.ts`: return the input unchanged
when it is already within the target count, otherwise binary-search the
tolerance in `[0.00001, 0.01]` for at most 20 iterations, and if the result
still has fewer than `minPoints` points re-run `simplifyPath` at the final
low-tolerance bound. -/
def simplifyToCount (coordinates : List (ℚ × ℚ)) (targetCount minPoints : ℚ) :
    List (ℚ × ℚ) :=
  if (coordinates.length : ℚ) ≤ targetCount then coordinates
  else
    if (((binSearch coordinates targetCount minPoints 20 0.00001 0.01 coordinates).2.2).length : ℚ)
        < minPoints then
      simplifyPathT coordinates (binSearch coordinates targetCount minPoints 20 0.00001 0.01 coordinates).1
    else
      (binSearch coordinates targetCount minPoints 20 0.00001 0.01 coordinates).2.2

/-- A coordinate list is exactly collinear when every triple of its members has
zero cross product, i.e. all points lie on one line. -/
def ExactlyCollinear (coords : List (ℚ × ℚ)) : Prop :=
  ∀ p ∈ coords, ∀ q ∈ coords, ∀ s ∈ coords,
    (q.1 - p.1) * (s.2 - p.2) - (q.2 - p.2) * (s.1 - p.1) = 0

/-- Axis-aligned bounding rectangle in longitude/latitude, as stored on a walk
record and computed for the viewport in `src/components/Map.tsx`. -/
structure Bounds where
  minLng : ℚ
  maxLng : ℚ
  minLat : ℚ
  maxLat : ℚ

/-- The rectangle-intersection test at the heart of `isWalkInViewport` in
`src/components/Map.tsx`. -/
def overlaps (a b : Bounds) : Bool :=
  !(decide (a.maxLng < b.minLng) || decide (a.minLng > b.maxLng) ||
    decide (a.maxLat < b.minLat) || decide (a.minLat > b.maxLat))

/-- `isWalkInViewport` from `src/components/Map.tsx`: a walk without bounds is
treated as always visible, otherwise its bounds are intersected with the
viewport bounds. -/
def isWalkInViewport (walkBounds : Option Bounds) (viewportBounds : Bounds) : Bool :=
  match walkBounds with
  | none => true
  | some b => overlaps b viewportBounds

/-- The fields of `WalkWithLOD` from `src/components/Map.tsx` that the LOD
selection reads: `coordinates` is the simplified geometry and
`coordinatesFull` the optional full geometry. -/
structure WalkWithLOD where
  id : String
  coordinates : List (ℚ × ℚ)
  coordinatesFull : Option (List (ℚ × ℚ))

/-- `HIGH_DETAIL_ZOOM` from `src/components/Map.tsx`. -/
def HIGH_DETAIL_ZOOM : ℚ := 14

/-- `getWalkCoordinates` from `src/components/Map.tsx`.  `selectedWalkId`
models `selectedWalk?.id`, and `HIGH_DETAIL_ZOOM ≤ zoom` models the
`useHighDetail` flag computed from the view state; `Option.getD` models the
JavaScript `walk.coordinatesFull || walk.coordinates` fallback (an absent field
is `none`; an empty array is truthy in JavaScript and so is `some []` here). -/
def getWalkCoordinates (selectedWalkId : Option String) (zoom : ℚ)
    (walk : WalkWithLOD) (forceHighDetail : Bool) : List (ℚ × ℚ) :=
  if forceHighDetail = true ∨ selectedWalkId = some walk.id then
    walk.coordinatesFull.getD walk.coordinates
  else
    if HIGH_DETAIL_ZOOM ≤ zoom ∧ walk.coordinatesFull.isSome = true then
      walk.coordinatesFull.getD walk.coordinates
    else
      walk.coordinates

/-- The LOD selection rule exactly as claim C5 states it: the result is the
full coordinate list when the record is the currently selected one, or when
the zoom is at least the high-detail threshold and full geometry is available;
in every other case it is the simplified list. -/
def selectLODClaimed (selectedWalkId : Option String) (zoom : ℚ)
    (walk : WalkWithLOD) (result : List (ℚ × ℚ)) : Prop :=
  if selectedWalkId = some walk.id ∨
      (HIGH_DETAIL_ZOOM ≤ zoom ∧ walk.coordinatesFull.isSome = true) then
    walk.coordinatesFull = some result
  else
    result = walk.coordinates

/-- The LOD selection rule with the availability qualifier applied to the
selected case as well: the result is the full coordinate list when full
geometry is available and the record is selected or the zoom is at least the
threshold; otherwise it is the simplified list. -/
def selectLODAmended (selectedWalkId : Option String) (zoom : ℚ)
    (walk : WalkWithLOD) (result : List (ℚ × ℚ)) : Prop :=
  if (selectedWalkId = some walk.id ∨ HIGH_DETAIL_ZOOM ≤ zoom) ∧
      walk.coordinatesFull.isSome = true then
    walk.coordinatesFull = some result
  else
    result = walk.coordinates

/-- A GPS track point, from `src/lib/types.ts` / `src/lib/utils.ts`
(`src/unnamed/part_001`): `time` is the timestamp in epoch milliseconds (the
source's `new Date(p.time).getTime()` conversion is abstracted away). -/
structure WalkPoint where
  latitude : ℚ
  longitude : ℚ
  elevation : Option ℚ
  time : Option ℚ

/-- `calculatePathDistance` from `src/unnamed/part_001`: sums a pairwise
distance over consecutive points.  The source's `haversineDistance` uses
transcendental functions (`sin`, `cos`, `atan2`, `sqrt`), so the pairwise
kernel is a parameter here; every theorem about this function below holds for
an arbitrary kernel, in particular for the real Haversine distance. -/
def calculatePathDistance (haversineDistance : ℚ → ℚ → ℚ → ℚ → ℚ)
    (points : List WalkPoint) : ℚ :=
  (points.zip (points.drop 1)).foldl
    (fun totalDistance pq =>
      totalDistance +
        haversineDistance pq.1.latitude pq.1.longitude pq.2.latitude pq.2.longitude)
    0

/-- `calculateDuration` from `src/unnamed/part_001`: `0` for fewer than two
points; otherwise the difference between the timestamp of the first and of the
last timestamped point, converted from milliseconds to minutes; `0` when no
timestamped point exists. -/
def calculateDuration (points : List WalkPoint) : ℚ :=
  if points.length < 2 then 0
  else
    match points.find? (fun p => p.time.isSome),
        points.reverse.find? (fun p => p.time.isSome) with
    | some firstPoint, some lastPoint =>
      match firstPoint.time, lastPoint.time with
      | some startTime, some endTime => (endTime - startTime) / (1000 * 60)
      | _, _ => 0
    | _, _ => 0

/-- The fields of a persisted walk record that the incremental-ingestion claim
reads: identity, provenance key, and the narrative summary (plus the name, as
a representative payload field). -/
structure WalkRecord where
  id : String
  name : String
  sourceFile : String
  summary : Option String

/-- `insertWalk` from `src/lib/db.ts`: the SQL `INSERT OR REPLACE` keyed by the
primary key `id`, modelled on a list store as replace-by-id or append. -/
def insertWalk : List WalkRecord → WalkRecord → List WalkRecord
  | [], w => [w]
  | r :: rs, w => if r.id = w.id then w :: rs else r :: insertWalk rs w

/-- Modelled from the spec: `getProcessedSourceFiles` is imported by
`scripts/preprocess-gpx.ts` from `src/lib/db` but its implementation is not
under `src/`; spec §6 describes it as "list distinct `sourceFile` values
already present". -/
def getProcessedSourceFiles (store : List WalkRecord) : List String :=
  (store.map (fun r => r.sourceFile)).dedup

/-- The per-file body of the processing loop in `main` of
`scripts/preprocess-gpx.ts`: parse the file (`parse` abstracts `parseGPXFile`
plus the optional best-effort summary generation) and insert the resulting
record; a file that fails to parse (`none`) is counted and skipped, leaving
the store unchanged. -/
def ingestStep (parse : String → Option WalkRecord) (st : List WalkRecord)
    (f : String) : List WalkRecord :=
  match parse f with
  | some w => insertWalk st w
  | none => st

/-- The incremental-mode flow of `main` in `scripts/preprocess-gpx.ts`: compute
the already-processed source keys, keep only the source files not among them,
and process each survivor in order. -/
def runIncremental (store : List WalkRecord) (gpxFiles : List String)
    (parse : String → Option WalkRecord) : List WalkRecord :=
  (gpxFiles.filter (fun f => !((getProcessedSourceFiles store).contains f))).foldl
    (ingestStep parse) store

/-- Four exactly collinear coordinates, the failing input for the
`simplifyToCount` minimum-point-count guarantee: Douglas-Peucker collapses
them to their two endpoints at every nonnegative tolerance, so no tolerance
search can reach a three-point floor. -/
def collinearFour : List (ℚ × ℚ) := [(0, 0), (0, 1), (0, 2), (0, 3)]

/-- A walk whose full geometry was never loaded (`coordinatesFull` absent),
used to exercise the LOD selection for a selected walk without full
geometry. -/
def lodWalk : WalkWithLOD :=
  { id := "w1", coordinates := [(0, 0)], coordinatesFull := none }

/-- Concrete store for the incremental-ingestion witness: one record already
present, ingested from `walk1.gpx`. -/
def demoRecord1 : WalkRecord :=
  { id := "id1", name := "Walk One", sourceFile := "walk1.gpx", summary := some "a stroll" }

/-- Concrete new record for the incremental-ingestion witness, parsed from
`walk2.gpx`. -/
def demoRecord2 : WalkRecord :=
  { id := "id2", name := "Walk Two", sourceFile := "walk2.gpx", summary := none }

/-- Store with one previously ingested record. -/
def demoStore : List WalkRecord := [demoRecord1]

/-- Source directory listing with one already-present and one new file. -/
def demoFiles : List String := ["walk1.gpx", "walk2.gpx"]

/-- Parser for the witness scenario: `walk2.gpx` parses to `demoRecord2`,
everything else fails to parse. -/
def demoParse : String → Option WalkRecord :=
  fun f => if f = "walk2.gpx" then some demoRecord2 else none

/-- Helper: a nonempty list's `head?` is `some` of its `headD`. -/
theorem head?_eq_some_headD {α : Type _} (l : List α) (d : α) (h : l ≠ []) :
    l.head? = some (l.headD d) := by
  cases l with
  | nil => exact absurd rfl h
  | cons a t => rfl

/-- Helper: a nonempty list's `getLast?` is `some` of its `getLastD`. -/
theorem getLast?_eq_some_getLastD {α : Type _} (l : List α) (d : α) (h : l ≠ []) :
    l.getLast? = some (l.getLastD d) := by
  rw [List.getLastD_eq_getLast?]
  cases hl : l.getLast? with
  | none => exact absurd (List.getLast?_eq_none_iff.mp hl) h
  | some x => rfl

/-- Helper: taking a positive number of elements preserves the head. -/
theorem head?_take {α : Type _} (n : Nat) (l : List α) (hn : n ≠ 0) :
    (l.take n).head? = l.head? := by
  cases l with
  | nil => simp
  | cons a t =>
    cases n with
    | zero => exact absurd rfl hn
    | succ m => rfl

/-- The max-distance scan either returns its accumulator unchanged or an index
taken from the scanned range. -/
theorem maxPerpLoop_acc_or_bounds (first lastc : ℚ × ℚ) :
    ∀ (ps : List (ℚ × ℚ)) (i : Nat) (acc : ℚ × Nat),
      maxPerpLoop first lastc ps i acc = acc ∨
        (i ≤ (maxPerpLoop first lastc ps i acc).2 ∧
          (maxPerpLoop first lastc ps i acc).2 < i + ps.length) := by
  intro ps
  induction ps with
  | nil => intro i acc; exact Or.inl rfl
  | cons p ps ih =>
    intro i acc
    rw [maxPerpLoop]
    split
    · rcases ih (i + 1) (perpendicularDistanceSq p first lastc, i) with heq | hb
      · right
        rw [heq]
        simp only [List.length_cons]
        omega
      · right
        obtain ⟨h1, h2⟩ := hb
        simp only [List.length_cons]
        omega
    · rcases ih (i + 1) acc with heq | hb
      · exact Or.inl heq
      · right
        obtain ⟨h1, h2⟩ := hb
        simp only [List.length_cons]
        omega

/-- When every scanned point is at (squared) distance zero, the scan returns
the initial `(0, 0)` accumulator: no strict improvement over zero occurs. -/
theorem maxPerpLoop_const_zero (first lastc : ℚ × ℚ) :
    ∀ (ps : List (ℚ × ℚ)) (i : Nat),
      (∀ p ∈ ps, perpendicularDistanceSq p first lastc = 0) →
      maxPerpLoop first lastc ps i (0, 0) = (0, 0) := by
  intro ps
  induction ps with
  | nil => intro i _; rfl
  | cons p ps ih =>
    intro i h
    rw [maxPerpLoop]
    have hz : ¬ (perpendicularDistanceSq p first lastc > (0, 0).1) := by
      rw [h p (List.mem_cons_self p ps)]
      simp
    rw [if_neg hz]
    exact ih (i + 1) (fun q hq => h q (List.mem_cons_of_mem p hq))

/-- Lists of at most two points are returned unchanged at any fuel. -/
theorem simplifyPathFuel_small (fuel : Nat) (coords : List (ℚ × ℚ)) (tol : ℚ)
    (h : coords.length ≤ 2) : simplifyPathFuel fuel coords tol = some coords := by
  cases fuel with
  | zero => rw [simplifyPathFuel, if_pos h]
  | succ f => rw [simplifyPathFuel, if_pos h]

/-- A nonzero max index lies strictly between the endpoints of the scanned
coordinate list. -/
theorem findFarthest_idx (coords : List (ℚ × ℚ)) (h : (findFarthest coords).2 ≠ 0) :
    1 ≤ (findFarthest coords).2 ∧ (findFarthest coords).2 + 2 ≤ coords.length := by
  have hlen : ((coords.drop 1).dropLast).length = coords.length - 1 - 1 := by
    rw [List.length_dropLast, List.length_drop]
  rcases maxPerpLoop_acc_or_bounds (coords.headD (0, 0)) (coords.getLastD (0, 0))
      ((coords.drop 1).dropLast) 1 (0, 0) with heq | hb
  · rw [findFarthest, heq] at h
    exact absurd rfl h
  · obtain ⟨h1, h2⟩ := hb
    rw [findFarthest] at h ⊢
    omega

/-- A strictly positive max distance forces at least one accumulator update,
hence a nonzero max index. -/
theorem findFarthest_snd_ne_zero (coords : List (ℚ × ℚ))
    (h : 0 < (findFarthest coords).1) : (findFarthest coords).2 ≠ 0 := by
  rcases maxPerpLoop_acc_or_bounds (coords.headD (0, 0)) (coords.getLastD (0, 0))
      ((coords.drop 1).dropLast) 1 (0, 0) with heq | hb
  · rw [findFarthest, heq] at h
    exact absurd h (by norm_num)
  · obtain ⟨h1, h2⟩ := hb
    rw [findFarthest]
    omega

/-- Structural soundness of the Douglas-Peucker recursion: every list it
returns is no longer than the input, preserves the input's first and last
elements, and has at least two elements whenever the input does.  This holds
for every fuel, tolerance and input, i.e. for every terminating run of the
source recursion. -/
theorem simplifyPathFuel_sound :
    ∀ (fuel : Nat) (coords : List (ℚ × ℚ)) (tol : ℚ) (r : List (ℚ × ℚ)),
      simplifyPathFuel fuel coords tol = some r →
      r.length ≤ coords.length ∧ r.head? = coords.head? ∧
        r.getLast? = coords.getLast? ∧ (2 ≤ coords.length → 2 ≤ r.length) := by
  intro fuel
  induction fuel with
  | zero =>
    intro coords tol r h
    simp only [simplifyPathFuel] at h
    by_cases hc : coords.length ≤ 2
    · rw [if_pos hc] at h
      simp only [Option.some.injEq] at h
      subst h
      exact ⟨le_rfl, rfl, rfl, fun h2 => h2⟩
    · rw [if_neg hc] at h
      exact Option.noConfusion h
  | succ f ih =>
    intro coords tol r h
    simp only [simplifyPathFuel] at h
    by_cases hc : coords.length ≤ 2
    · rw [if_pos hc] at h
      simp only [Option.some.injEq] at h
      subst h
      exact ⟨le_rfl, rfl, rfl, fun h2 => h2⟩
    · rw [if_neg hc] at h
      have hn : 3 ≤ coords.length := by omega
      have hne : coords ≠ [] := by
        intro hnil
        rw [hnil] at hn
        simp at hn
      by_cases hg : tol < 0 ∨ (findFarthest coords).1 > tol ^ 2
      · rw [if_pos hg] at h
        rw [Option.bind_eq_some] at h
        obtain ⟨l, hL, h2⟩ := h
        rw [Option.map_eq_some'] at h2
        obtain ⟨rr, hR, hr⟩ := h2
        subst hr
        obtain ⟨hlenL, hheadL, hlastL, h2L⟩ := ih _ tol l hL
        obtain ⟨hlenR, hheadR, hlastR, h2R⟩ := ih _ tol rr hR
        by_cases hk0 : (findFarthest coords).2 = 0
        · rw [hk0] at hL hlenR hheadR hlastR h2R
          rw [List.drop_zero] at hlenR hheadR hlastR h2R
          have hsmall := simplifyPathFuel_small f (coords.take (0 + 1)) tol
            (by rw [List.length_take]; omega)
          rw [hsmall] at hL
          simp only [Option.some.injEq] at hL
          have hlen1 : l.length ≤ 1 := by
            rw [← hL, List.length_take]
            omega
          have hld : l.dropLast = [] := by
            rw [← List.length_eq_zero, List.length_dropLast]
            omega
          rw [hld, List.nil_append]
          exact ⟨hlenR, hheadR, hlastR, h2R⟩
        · obtain ⟨hk1, hk2⟩ := findFarthest_idx coords hk0
          have hlt : (coords.take ((findFarthest coords).2 + 1)).length =
              (findFarthest coords).2 + 1 := by
            rw [List.length_take]
            omega
          have hld : (coords.drop (findFarthest coords).2).length =
              coords.length - (findFarthest coords).2 := List.length_drop _ _
          have h2L' : 2 ≤ l.length := h2L (by rw [hlt]; omega)
          have h2R' : 2 ≤ rr.length := h2R (by rw [hld]; omega)
          have hrrne : rr ≠ [] := by
            intro hnil
            rw [hnil] at h2R'
            simp at h2R'
          have hdropne : coords.drop (findFarthest coords).2 ≠ [] := by
            intro hnil
            rw [hnil] at hld
            simp at hld
            omega
          refine ⟨?_, ?_, ?_, ?_⟩
          · rw [List.length_append, List.length_dropLast]
            rw [hlt] at hlenL
            rw [hld] at hlenR
            omega
          · have hhl : (l.dropLast ++ rr).head? = l.head? := by
              rcases l with _ | ⟨x, l'⟩
              · simp at h2L'
              · rcases l' with _ | ⟨y, l''⟩
                · simp at h2L'
                · rfl
            rw [hhl, hheadL]
            exact head?_take _ _ (by omega)
          · have hrl : (l.dropLast ++ rr).getLast? = rr.getLast? :=
              List.getLast?_append_of_ne_nil _ hrrne
            rw [hrl, hlastR]
            conv_rhs => rw [← List.take_append_drop (findFarthest coords).2 coords]
            exact (List.getLast?_append_of_ne_nil _ hdropne).symm
          · intro _
            rw [List.length_append, List.length_dropLast]
            omega
      · rw [if_neg hg] at h
        simp only [Option.some.injEq] at h
        subst h
        refine ⟨?_, ?_, ?_, ?_⟩
        · simp only [List.length_cons, List.length_nil]
          omega
        · rw [head?_eq_some_headD coords (0, 0) hne]
          rfl
        · rw [getLast?_eq_some_getLastD coords (0, 0) hne]
          rfl
        · intro _
          simp

/-- Totality of the fuel-indexed recursion for nonnegative tolerances: fuel
`length - 2` (hence also `length`) suffices, because the strict-improvement
test forces the split index strictly inside the range, so both halves are
strictly shorter than the input. -/
theorem simplifyPathFuel_total :
    ∀ (fuel : Nat) (coords : List (ℚ × ℚ)) (tol : ℚ), 0 ≤ tol →
      coords.length ≤ fuel + 2 →
      ∃ r, simplifyPathFuel fuel coords tol = some r := by
  intro fuel
  induction fuel with
  | zero =>
    intro coords tol _ hlen
    exact ⟨coords, simplifyPathFuel_small 0 coords tol (by omega)⟩
  | succ f ih =>
    intro coords tol ht hlen
    by_cases hc : coords.length ≤ 2
    · exact ⟨coords, simplifyPathFuel_small (f + 1) coords tol hc⟩
    · by_cases hg : tol < 0 ∨ (findFarthest coords).1 > tol ^ 2
      · have hff : 0 < (findFarthest coords).1 := by
          rcases hg with hlt | hgt
          · exact absurd hlt (not_lt.mpr ht)
          · have h0 : (0 : ℚ) ≤ tol ^ 2 := sq_nonneg tol
            linarith
        obtain ⟨hk1, hk2⟩ := findFarthest_idx coords (findFarthest_snd_ne_zero coords hff)
        have htake : (coords.take ((findFarthest coords).2 + 1)).length ≤ f + 2 := by
          rw [List.length_take]
          have hmin := min_le_left ((findFarthest coords).2 + 1) coords.length
          omega
        obtain ⟨l, hL⟩ := ih (coords.take ((findFarthest coords).2 + 1)) tol ht htake
        obtain ⟨rr, hR⟩ := ih (coords.drop (findFarthest coords).2) tol ht
          (by rw [List.length_drop]; omega)
        refine ⟨l.dropLast ++ rr, ?_⟩
        simp only [simplifyPathFuel]
        rw [if_neg hc, if_pos hg, hL, hR]
        rfl
      · refine ⟨[coords.headD (0, 0), coords.getLastD (0, 0)], ?_⟩
        simp only [simplifyPathFuel]
        rw [if_neg hc, if_neg hg]

/-- A (squared) perpendicular distance to the chord of a collinear list is
zero: the chord is nondegenerate since the endpoints differ, and the cross
product with any member of the list vanishes. -/
theorem perpendicularDistanceSq_eq_zero_of_collinear (coords : List (ℚ × ℚ))
    (hcol : ExactlyCollinear coords) (hnil : coords ≠ [])
    (hne : coords.headD (0, 0) ≠ coords.getLastD (0, 0))
    (p : ℚ × ℚ) (hp : p ∈ coords) :
    perpendicularDistanceSq p (coords.headD (0, 0)) (coords.getLastD (0, 0)) = 0 := by
  have hf : coords.headD (0, 0) ∈ coords := by
    cases coords with
    | nil => exact absurd rfl hnil
    | cons a t => exact List.mem_cons_self a t
  have hlmem : coords.getLastD (0, 0) ∈ coords := by
    have h1 := getLast?_eq_some_getLastD coords (0, 0) hnil
    obtain ⟨hh, hx⟩ := List.mem_getLast?_eq_getLast (l := coords)
      (x := coords.getLastD (0, 0)) h1
    rw [hx]
    exact List.getLast_mem hh
  have hcross := hcol (coords.headD (0, 0)) hf (coords.getLastD (0, 0)) hlmem p hp
  rw [perpendicularDistanceSq]
  have hcond : ¬ ((coords.getLastD (0, 0)).1 - (coords.headD (0, 0)).1 = 0 ∧
      (coords.getLastD (0, 0)).2 - (coords.headD (0, 0)).2 = 0) := by
    rintro ⟨hx, hy⟩
    apply hne
    apply Prod.ext
    · linarith
    · linarith
  rw [if_neg hcond]
  have hnum : ((coords.getLastD (0, 0)).2 - (coords.headD (0, 0)).2) * p.1 -
      ((coords.getLastD (0, 0)).1 - (coords.headD (0, 0)).1) * p.2 +
      (coords.getLastD (0, 0)).1 * (coords.headD (0, 0)).2 -
      (coords.getLastD (0, 0)).2 * (coords.headD (0, 0)).1 = 0 := by
    linear_combination -hcross
  rw [hnum]
  norm_num

/-- On an exactly collinear list with distinct endpoints, one step of the
recursion collapses everything to the two endpoints, for any nonnegative
tolerance: the max scanned (squared) distance is zero, which is not greater
than the tolerance. -/
theorem simplifyPathFuel_collinear (f : Nat) (coords : List (ℚ × ℚ)) (tol : ℚ)
    (h3 : 3 ≤ coords.length) (hcol : ExactlyCollinear coords)
    (hne : coords.headD (0, 0) ≠ coords.getLastD (0, 0)) (ht : 0 ≤ tol) :
    simplifyPathFuel (f + 1) coords tol =
      some [coords.headD (0, 0), coords.getLastD (0, 0)] := by
  have hnil : coords ≠ [] := by
    intro h
    rw [h] at h3
    simp at h3
  have hzero : ∀ p ∈ (coords.drop 1).dropLast,
      perpendicularDistanceSq p (coords.headD (0, 0)) (coords.getLastD (0, 0)) = 0 := by
    intro p hp
    exact perpendicularDistanceSq_eq_zero_of_collinear coords hcol hnil hne p
      ((List.drop_sublist 1 coords).subset ((List.dropLast_sublist _).subset hp))
  have hff : findFarthest coords = (0, 0) := by
    rw [findFarthest]
    exact maxPerpLoop_const_zero _ _ _ 1 hzero
  have hc2 : ¬ (tol < 0 ∨ (findFarthest coords).1 > tol ^ 2) := by
    rintro (h | h)
    · exact absurd h (not_lt.mpr ht)
    · rw [hff] at h
      have h2 := sq_nonneg tol
      norm_num at h
      linarith
  simp only [simplifyPathFuel]
  rw [if_neg (show ¬ coords.length ≤ 2 by omega), if_neg hc2]

/-- C2: for every coordinate list with at least one element and every
tolerance ≥ 0, `simplifyPath` terminates, and the first and last elements of
its result equal the first and last elements of the input. -/
theorem simplifyPath_preserves_endpoints (coords : List (ℚ × ℚ)) (tol : ℚ)
    (_h1 : 1 ≤ coords.length) (h2 : 0 ≤ tol) :
    ∃ r, simplifyPath coords tol = some r ∧
      r.head? = coords.head? ∧ r.getLast? = coords.getLast? := by
  obtain ⟨r, hr⟩ := simplifyPathFuel_total coords.length coords tol h2 (by omega)
  obtain ⟨-, hh, hl, -⟩ := simplifyPathFuel_sound coords.length coords tol r hr
  exact ⟨r, hr, hh, hl⟩

/-- Witness for C2 at the two-point input `[(0,0), (1,1)]` with tolerance 0. -/
theorem simplifyPath_preserves_endpoints_witness :
    ∃ r, simplifyPath [((0 : ℚ), (0 : ℚ)), ((1 : ℚ), (1 : ℚ))] 0 = some r ∧
      r.head? = ([((0 : ℚ), (0 : ℚ)), ((1 : ℚ), (1 : ℚ))] : List (ℚ × ℚ)).head? ∧
      r.getLast? = ([((0 : ℚ), (0 : ℚ)), ((1 : ℚ), (1 : ℚ))] : List (ℚ × ℚ)).getLast? :=
  simplifyPath_preserves_endpoints _ _ (by simp) le_rfl

/-- C4: every list `simplifyPath` returns is no longer than its input, for
every coordinate list and every tolerance. -/
theorem simplifyPath_length_le (coords : List (ℚ × ℚ)) (tol : ℚ) (r : List (ℚ × ℚ))
    (h : simplifyPath coords tol = some r) : r.length ≤ coords.length :=
  (simplifyPathFuel_sound coords.length coords tol r h).1

/-- Witness for C4: three collinear points at tolerance 0 simplify to their
two endpoints, whose count is at most the input count. -/
theorem simplifyPath_length_le_witness :
    ([((0 : ℚ), (0 : ℚ)), ((0 : ℚ), (2 : ℚ))] : List (ℚ × ℚ)).length ≤
      ([((0 : ℚ), (0 : ℚ)), ((0 : ℚ), (1 : ℚ)), ((0 : ℚ), (2 : ℚ))] : List (ℚ × ℚ)).length :=
  simplifyPath_length_le _ 0 _ (by with_unfolding_all decide)

/-- C9: every list `simplifyPath` returns has at least two elements whenever
the input has at least two, for every tolerance. -/
theorem simplifyPath_at_least_two (coords : List (ℚ × ℚ)) (tol : ℚ) (r : List (ℚ × ℚ))
    (h2 : 2 ≤ coords.length) (h : simplifyPath coords tol = some r) : 2 ≤ r.length :=
  (simplifyPathFuel_sound coords.length coords tol r h).2.2.2 h2

/-- Witness for C9 at the same three collinear points. -/
theorem simplifyPath_at_least_two_witness :
    2 ≤ ([((0 : ℚ), (0 : ℚ)), ((0 : ℚ), (2 : ℚ))] : List (ℚ × ℚ)).length :=
  simplifyPath_at_least_two [((0 : ℚ), (0 : ℚ)), ((0 : ℚ), (1 : ℚ)), ((0 : ℚ), (2 : ℚ))] 0 _
    (by simp) (by with_unfolding_all decide)

/-- C3 (amended): on an exactly collinear list of at least three points whose
first and last points are distinct, `simplifyPath` at tolerance 0 returns
exactly the two endpoints; and the concrete 4-point scenario
`[(0,0),(0,1),(0,2),(1,2)]` at tolerance `0.5` simplifies to
`[(0,0),(0,2),(1,2)]`. -/
theorem simplifyPath_collinear_collapse :
    (∀ coords : List (ℚ × ℚ), 3 ≤ coords.length → ExactlyCollinear coords →
        coords.headD (0, 0) ≠ coords.getLastD (0, 0) →
        simplifyPath coords 0 = some [coords.headD (0, 0), coords.getLastD (0, 0)]) ∧
      simplifyPath [((0 : ℚ), (0 : ℚ)), (0, 1), (0, 2), (1, 2)] (1 / 2) =
        some [((0 : ℚ), (0 : ℚ)), (0, 2), (1, 2)] := by
  constructor
  · intro coords h3 hcol hne
    rw [simplifyPath]
    obtain ⟨m, hm⟩ : ∃ m, coords.length = m + 1 := ⟨coords.length - 1, by omega⟩
    rw [hm]
    exact simplifyPathFuel_collinear m coords 0 h3 hcol hne le_rfl
  · with_unfolding_all decide

/-- Witness for C3's general part at three collinear points with distinct
endpoints. -/
theorem simplifyPath_collinear_collapse_witness :
    simplifyPath [((0 : ℚ), (0 : ℚ)), ((0 : ℚ), (1 : ℚ)), ((0 : ℚ), (2 : ℚ))] 0 =
      some [((0 : ℚ), (0 : ℚ)), ((0 : ℚ), (2 : ℚ))] :=
  simplifyPath_collinear_collapse.1 _ (by simp)
    (by
      intro p hp q hq s hs
      simp only [List.mem_cons, List.not_mem_nil, or_false] at hp hq hs
      rcases hp with rfl | rfl | rfl <;> rcases hq with rfl | rfl | rfl <;>
        rcases hs with rfl | rfl | rfl <;> norm_num)
    (by with_unfolding_all decide)

/-- C3 counterexample to the claim as stated: `[(0,0),(0,1),(0,0)]` is exactly
collinear with at least three points, yet `simplifyPath` at tolerance 0
returns all three points (the chord from first to last is degenerate, so the
interior point is at positive distance), not the two endpoints. -/
theorem simplifyPath_collinear_claim_counterexample :
    3 ≤ ([((0 : ℚ), (0 : ℚ)), ((0 : ℚ), (1 : ℚ)), ((0 : ℚ), (0 : ℚ))] : List (ℚ × ℚ)).length ∧
      ExactlyCollinear [((0 : ℚ), (0 : ℚ)), ((0 : ℚ), (1 : ℚ)), ((0 : ℚ), (0 : ℚ))] ∧
      simplifyPath [((0 : ℚ), (0 : ℚ)), ((0 : ℚ), (1 : ℚ)), ((0 : ℚ), (0 : ℚ))] 0 =
        some [((0 : ℚ), (0 : ℚ)), ((0 : ℚ), (1 : ℚ)), ((0 : ℚ), (0 : ℚ))] ∧
      simplifyPath [((0 : ℚ), (0 : ℚ)), ((0 : ℚ), (1 : ℚ)), ((0 : ℚ), (0 : ℚ))] 0 ≠
        some [((0 : ℚ), (0 : ℚ)), ((0 : ℚ), (0 : ℚ))] := by
  refine ⟨by simp, ?_, by with_unfolding_all decide, by with_unfolding_all decide⟩
  intro p hp q hq s hs
  simp only [List.mem_cons, List.not_mem_nil, or_false] at hp hq hs
  rcases hp with rfl | rfl | rfl <;> rcases hq with rfl | rfl | rfl <;>
    rcases hs with rfl | rfl | rfl <;> norm_num

/-- The four collinear demo points are exactly collinear. -/
theorem collinearFour_collinear : ExactlyCollinear collinearFour := by
  intro p hp q hq s hs
  simp only [collinearFour, List.mem_cons, List.not_mem_nil, or_false] at hp hq hs
  rcases hp with rfl | rfl | rfl | rfl <;> rcases hq with rfl | rfl | rfl | rfl <;>
    rcases hs with rfl | rfl | rfl | rfl <;> norm_num

/-- Douglas-Peucker collapses the four collinear demo points to their two
endpoints at every nonnegative tolerance. -/
theorem collinearFour_simplify (t : ℚ) (ht : 0 ≤ t) :
    simplifyPathT collinearFour t = [((0 : ℚ), (0 : ℚ)), ((0 : ℚ), (3 : ℚ))] := by
  have h := simplifyPathFuel_collinear 3 collinearFour t (by simp [collinearFour])
    collinearFour_collinear (by with_unfolding_all decide) ht
  rw [simplifyPathT, simplifyPath,
    show collinearFour.length = 3 + 1 from rfl, h]
  with_unfolding_all rfl

/-- On the four collinear demo points with target count 2 and minimum count 3,
every iteration of the tolerance search produces the two-endpoint result and
lowers only the upper bracket bound. -/
theorem binSearch_collinearFour :
    ∀ (n : Nat) (low high : ℚ), 0 < low → 0 < high →
      ∀ result, ∃ high2, binSearch collinearFour 2 3 (n + 1) low high result =
        (low, high2, [((0 : ℚ), (0 : ℚ)), ((0 : ℚ), (3 : ℚ))]) := by
  intro n
  induction n with
  | zero =>
    intro low high hl hh result
    refine ⟨(low + high) / 2, ?_⟩
    simp only [binSearch]
    rw [collinearFour_simplify _ (by linarith)]
    rw [if_pos (by norm_num)]
  | succ n ih =>
    intro low high hl hh result
    obtain ⟨h2, hrec⟩ := ih low ((low + high) / 2) hl (by linarith)
      (simplifyPathT collinearFour ((low + high) / 2))
    refine ⟨h2, ?_⟩
    simp only [binSearch]
    rw [collinearFour_simplify _ (by linarith)]
    rw [if_pos (by norm_num)]
    rw [collinearFour_simplify _ (by linarith)] at hrec
    exact hrec

/-- C1 (code-bug evidence): the four collinear demo points have length at
least `minPoints = 3`, yet `simplifyToCount` with `targetCount = 2` returns
only 2 points, below the promised floor: every tolerance in the search
bracket collapses collinear points to their endpoints, and so does the final
re-run at the low bound, despite the source comment "Ensure we have at least
minPoints". -/
theorem simplifyToCount_below_minPoints :
    3 ≤ collinearFour.length ∧ (simplifyToCount collinearFour 2 3).length = 2 := by
  constructor
  · simp [collinearFour]
  · rw [simplifyToCount]
    rw [if_neg (by norm_num [collinearFour])]
    obtain ⟨h2, hbs⟩ := binSearch_collinearFour 19 0.00001 0.01 (by norm_num)
      (by norm_num) collinearFour
    rw [show (20 : Nat) = 19 + 1 from rfl, hbs]
    rw [if_pos (by norm_num)]
    rw [collinearFour_simplify 0.00001 (by norm_num)]
    rfl

/-- Invariant of the tolerance binary search: the low bound stays positive,
and the carried result is either the original input or a `simplifyPath` run at
some positive tolerance. -/
theorem binSearch_inv (coords : List (ℚ × ℚ)) (tc mp : ℚ) :
    ∀ (n : Nat) (low high : ℚ) (result : List (ℚ × ℚ)),
      0 < low → 0 < high →
      (result = coords ∨ ∃ t, 0 < t ∧ result = simplifyPathT coords t) →
      0 < (binSearch coords tc mp n low high result).1 ∧
        ((binSearch coords tc mp n low high result).2.2 = coords ∨
          ∃ t, 0 < t ∧ (binSearch coords tc mp n low high result).2.2 =
            simplifyPathT coords t) := by
  intro n
  induction n with
  | zero =>
    intro low high result hl _hh hres
    exact ⟨hl, hres⟩
  | succ n ih =>
    intro low high result hl hh _hres
    simp only [binSearch]
    split
    · exact ih low ((low + high) / 2) _ hl (by linarith)
        (Or.inr ⟨(low + high) / 2, by linarith, rfl⟩)
    · split
      · exact ih ((low + high) / 2) high _ (by linarith) hh
          (Or.inr ⟨(low + high) / 2, by linarith, rfl⟩)
      · split
        · exact ih low ((low + high) / 2) _ hl (by linarith)
            (Or.inr ⟨(low + high) / 2, by linarith, rfl⟩)
        · exact ⟨hl, Or.inr ⟨(low + high) / 2, by linarith, rfl⟩⟩

/-- The total wrapper preserves head, last and the length bound for every
tolerance (when the inner run returns `none`, the wrapper returns the input
itself, for which all three are trivial). -/
theorem simplifyPathT_facts (coords : List (ℚ × ℚ)) (t : ℚ) :
    (simplifyPathT coords t).head? = coords.head? ∧
      (simplifyPathT coords t).getLast? = coords.getLast? ∧
      (simplifyPathT coords t).length ≤ coords.length := by
  rw [simplifyPathT]
  cases h : simplifyPath coords t with
  | none => exact ⟨rfl, rfl, le_rfl⟩
  | some r =>
    obtain ⟨h1, h2, h3, -⟩ := simplifyPathFuel_sound coords.length coords t r h
    exact ⟨h2, h3, h1⟩

/-- At a positive tolerance the fuel suffices, so the total wrapper is the
`some`-value of `simplifyPath`. -/
theorem simplifyPath_eq_some_T (coords : List (ℚ × ℚ)) (t : ℚ) (ht : 0 < t) :
    simplifyPath coords t = some (simplifyPathT coords t) := by
  obtain ⟨r, hr⟩ := simplifyPathFuel_total coords.length coords t (le_of_lt ht) (by omega)
  have hr2 : simplifyPath coords t = some r := hr
  rw [simplifyPathT, hr2]
  rfl

/-- C10: `simplifyToCount` either returns its input unchanged or a
`simplifyPath` result at some positive tolerance; consequently it preserves
the first and last coordinates and never increases the point count. -/
theorem simplifyToCount_refines (coords : List (ℚ × ℚ)) (targetCount minPoints : ℚ) :
    (simplifyToCount coords targetCount minPoints = coords ∨
        ∃ t r, 0 < t ∧ simplifyPath coords t = some r ∧
          simplifyToCount coords targetCount minPoints = r) ∧
      (simplifyToCount coords targetCount minPoints).head? = coords.head? ∧
      (simplifyToCount coords targetCount minPoints).getLast? = coords.getLast? ∧
      (simplifyToCount coords targetCount minPoints).length ≤ coords.length := by
  have key : simplifyToCount coords targetCount minPoints = coords ∨
      ∃ t, 0 < t ∧ simplifyToCount coords targetCount minPoints = simplifyPathT coords t := by
    rw [simplifyToCount]
    split
    · exact Or.inl rfl
    · have h := binSearch_inv coords targetCount minPoints 20 0.00001 0.01 coords
        (by norm_num) (by norm_num) (Or.inl rfl)
      split
      · exact Or.inr ⟨(binSearch coords targetCount minPoints 20 0.00001 0.01 coords).1,
          h.1, rfl⟩
      · exact h.2
  rcases key with hk | ⟨t, ht, hk⟩
  · rw [hk]
    exact ⟨Or.inl rfl, rfl, rfl, le_rfl⟩
  · obtain ⟨hh, hl, hlen⟩ := simplifyPathT_facts coords t
    rw [hk]
    exact ⟨Or.inr ⟨t, simplifyPathT coords t, ht, simplifyPath_eq_some_T coords t ht, rfl⟩,
      hh, hl, hlen⟩

/-- C7: the rectangle-intersection test is symmetric. -/
theorem overlaps_symm (a b : Bounds) : overlaps a b = overlaps b a := by
  simp only [overlaps, gt_iff_lt]
  by_cases h1 : a.maxLng < b.minLng <;> by_cases h2 : b.maxLng < a.minLng <;>
    by_cases h3 : a.maxLat < b.minLat <;> by_cases h4 : b.maxLat < a.minLat <;>
    simp [h1, h2, h3, h4]

/-- C8: the geometry metrics are defined and zero on degenerate inputs of at
most one point, for every pairwise distance kernel. -/
theorem geometry_degenerate_zero (haversineDistance : ℚ → ℚ → ℚ → ℚ → ℚ)
    (points : List WalkPoint) (h : points.length ≤ 1) :
    calculatePathDistance haversineDistance points = 0 ∧ calculateDuration points = 0 := by
  constructor
  · rcases points with _ | ⟨p, _ | ⟨q, rest⟩⟩
    · rfl
    · rfl
    · simp at h
  · rw [calculateDuration, if_pos (by omega)]

/-- Witness for C8 at a one-point input and the constant-zero kernel. -/
theorem geometry_degenerate_zero_witness :
    calculatePathDistance (fun _ _ _ _ => 0)
        [{ latitude := 0, longitude := 0, elevation := none, time := none }] = 0 ∧
      calculateDuration
        [{ latitude := 0, longitude := 0, elevation := none, time := none }] = 0 :=
  geometry_degenerate_zero (fun _ _ _ _ => 0) _ (by simp)

/-- C5 (amended): `getWalkCoordinates` returns the full coordinate list
exactly when full geometry is available and the walk is selected or the zoom
is at least `HIGH_DETAIL_ZOOM`; in every other case (including a selected walk
without full geometry) it returns the simplified list. -/
theorem getWalkCoordinates_lod (selectedWalkId : Option String) (zoom : ℚ)
    (walk : WalkWithLOD) :
    selectLODAmended selectedWalkId zoom walk
      (getWalkCoordinates selectedWalkId zoom walk false) := by
  rw [selectLODAmended, getWalkCoordinates]
  cases hco : walk.coordinatesFull with
  | none => simp [hco]
  | some full =>
    by_cases h1 : selectedWalkId = some walk.id
    · simp [hco, h1]
    · by_cases h2 : HIGH_DETAIL_ZOOM ≤ zoom
      · simp [hco, h1, h2]
      · simp [hco, h1, h2]

/-- C5 counterexample to the claim as stated: for a selected walk whose full
geometry is absent, `getWalkCoordinates` returns the simplified list, whereas
the claimed rule demands the full list whenever the walk is selected. -/
theorem getWalkCoordinates_claim_counterexample :
    ¬ selectLODClaimed (some "w1") 0 lodWalk
      (getWalkCoordinates (some "w1") 0 lodWalk false) := by
  intro h
  have hc : some "w1" = some lodWalk.id ∨
      (HIGH_DETAIL_ZOOM ≤ (0 : ℚ) ∧ lodWalk.coordinatesFull.isSome = true) :=
    Or.inl rfl
  rw [selectLODClaimed, if_pos hc] at h
  simp [lodWalk] at h

/-- Upserting a record whose id is fresh for a prefix of the store leaves that
prefix untouched and operates on the suffix. -/
theorem insertWalk_fresh (store acc : List WalkRecord) (w : WalkRecord)
    (h : ∀ r ∈ store, r.id ≠ w.id) :
    insertWalk (store ++ acc) w = store ++ insertWalk acc w := by
  induction store with
  | nil => rfl
  | cons r rs ih =>
    rw [List.cons_append, insertWalk,
      if_neg (h r (List.mem_cons_self r rs)),
      ih (fun x hx => h x (List.mem_cons_of_mem r hx))]
    rfl

/-- Every member of an upserted store is an old member or the new record. -/
theorem insertWalk_mem (acc : List WalkRecord) (w x : WalkRecord)
    (hx : x ∈ insertWalk acc w) : x ∈ acc ∨ x = w := by
  induction acc with
  | nil =>
    simp only [insertWalk, List.mem_singleton] at hx
    exact Or.inr hx
  | cons r rs ih =>
    rw [insertWalk] at hx
    by_cases h : r.id = w.id
    · rw [if_pos h] at hx
      rcases List.mem_cons.mp hx with rfl | hmem
      · exact Or.inr rfl
      · exact Or.inl (List.mem_cons_of_mem r hmem)
    · rw [if_neg h] at hx
      rcases List.mem_cons.mp hx with rfl | hmem
      · exact Or.inl (List.mem_cons_self _ _)
      · rcases ih hmem with h1 | h1
        · exact Or.inl (List.mem_cons_of_mem r h1)
        · exact Or.inr h1

/-- Folding the per-file ingestion over any file list whose parsed ids are
fresh for the store leaves the store a verbatim prefix; everything appended
comes from parsing one of the processed files. -/
theorem foldl_ingest_shape (parse : String → Option WalkRecord) (store : List WalkRecord) :
    ∀ (files : List String) (acc : List WalkRecord),
      (∀ f ∈ files, ∀ w, parse f = some w → ∀ r ∈ store, r.id ≠ w.id) →
      ∃ acc2, List.foldl (ingestStep parse) (store ++ acc) files = store ++ acc2 ∧
        ∀ w ∈ acc2, w ∈ acc ∨ ∃ f ∈ files, parse f = some w := by
  intro files
  induction files with
  | nil =>
    intro acc _
    exact ⟨acc, rfl, fun w hw => Or.inl hw⟩
  | cons f fs ih =>
    intro acc hfresh
    rw [List.foldl_cons]
    cases hp : parse f with
    | none =>
      rw [show ingestStep parse (store ++ acc) f = store ++ acc by
        rw [ingestStep, hp]]
      obtain ⟨acc2, heq, hmem⟩ := ih acc (fun g hg => hfresh g (List.mem_cons_of_mem f hg))
      refine ⟨acc2, heq, fun w hw => ?_⟩
      rcases hmem w hw with hin | ⟨g, hg, hgw⟩
      · exact Or.inl hin
      · exact Or.inr ⟨g, List.mem_cons_of_mem f hg, hgw⟩
    | some w =>
      rw [show ingestStep parse (store ++ acc) f = insertWalk (store ++ acc) w by
        rw [ingestStep, hp]]
      rw [insertWalk_fresh store acc w
        (fun r hr => hfresh f (List.mem_cons_self f fs) w hp r hr)]
      obtain ⟨acc2, heq, hmem⟩ := ih (insertWalk acc w)
        (fun g hg => hfresh g (List.mem_cons_of_mem f hg))
      refine ⟨acc2, heq, fun x hx => ?_⟩
      rcases hmem x hx with hin | ⟨g, hg, hgw⟩
      · rcases insertWalk_mem acc w x hin with h1 | rfl
        · exact Or.inl h1
        · exact Or.inr ⟨f, List.mem_cons_self f fs, hp⟩
      · exact Or.inr ⟨g, List.mem_cons_of_mem f hg, hgw⟩

/-- C6: an incremental run whose freshly generated ids do not collide with the
store leaves every previously present record (all fields, including the
summary) verbatim in place as a prefix, and everything it appends was parsed
from a source file whose key is not among the already-processed source files
— sources already present are never processed. -/
theorem runIncremental_skips_present (store : List WalkRecord) (gpxFiles : List String)
    (parse : String → Option WalkRecord)
    (hfresh : ∀ f w, parse f = some w → ∀ r ∈ store, r.id ≠ w.id) :
    ∃ newRecs, runIncremental store gpxFiles parse = store ++ newRecs ∧
      ∀ w ∈ newRecs, ∃ f, f ∈ gpxFiles ∧
        (getProcessedSourceFiles store).contains f = false ∧ parse f = some w := by
  obtain ⟨acc2, heq, hmem⟩ := foldl_ingest_shape parse store
    (gpxFiles.filter fun f => !((getProcessedSourceFiles store).contains f)) []
    (fun f _ w hw r hr => hfresh f w hw r hr)
  rw [List.append_nil] at heq
  refine ⟨acc2, ?_, ?_⟩
  · rw [runIncremental]
    exact heq
  · intro w hw
    rcases hmem w hw with hin | ⟨f, hf, hfw⟩
    · simp at hin
    · obtain ⟨hfg, hfc⟩ := List.mem_filter.mp hf
      refine ⟨f, hfg, ?_, hfw⟩
      simpa using hfc

/-- Witness for C6: a store holding one record from `walk1.gpx` (with a
summary), a directory listing `walk1.gpx` and `walk2.gpx`, and a parser that
only parses `walk2.gpx`. -/
theorem runIncremental_skips_present_witness :
    ∃ newRecs, runIncremental demoStore demoFiles demoParse = demoStore ++ newRecs ∧
      ∀ w ∈ newRecs, ∃ f, f ∈ demoFiles ∧
        (getProcessedSourceFiles demoStore).contains f = false ∧ demoParse f = some w :=
  runIncremental_skips_present demoStore demoFiles demoParse (by
    intro f w h r hr
    simp only [demoParse] at h
    by_cases hf : f = "walk2.gpx"
    · rw [if_pos hf] at h
      simp only [Option.some.injEq] at h
      subst h
      simp only [demoStore, List.mem_singleton] at hr
      subst hr
      decide
    · rw [if_neg hf] at h
      exact Option.noConfusion h)
